import Mathlib

/-!
# Verification of the touch-proximity-sensor firmware

Shallow embedding of the two firmware translation units
`src/sensor-node.cpp` (sensor node) and `src/usb-hub-node.cpp` (hub node).

Machine integers are modelled as `Nat` with explicit `% 2^w` where overflow
matters; the packed little-endian `TouchPacket` struct is modelled as a byte
list; `float` filter state is modelled as exact rationals `ℚ` (the filter
claims concern the algebraic update structure, not bit-level IEEE rounding).
-/

namespace Touch

/-- MAX_CH from `sensor-node.cpp` / the `v[32]` bound in `usb-hub-node.cpp`. -/
def MAX_CH : Nat := 32

/-- `sizeof(TouchPacket)` for the packed hub struct:
`1 (ver) + 1 (n) + 3 (id) + 2 (seq) + 4 (ms) + 2*32 (v) = 75` bytes. -/
def sizeofTouchPacket : Nat := 1 + 1 + 3 + 2 + 4 + 2 * MAX_CH

/-- The fixed-header length test in `onRecv`:
`sizeof(uint8_t)*2 + 3 + sizeof(uint16_t) + sizeof(uint32_t)`. -/
def HDR_LEN : Nat := 1 * 2 + 3 + 2 + 4

/-- Little-endian bytes of a 16-bit value (packed struct layout on a
little-endian target). -/
def le16 (x : Nat) : List Nat := [x % 256, x / 256 % 256]

/-- Little-endian bytes of a 32-bit value. -/
def le32 (x : Nat) : List Nat :=
  [x % 256, x / 256 % 256, x / 2 ^ 16 % 256, x / 2 ^ 24 % 256]

/-- Byte at offset `i` of a buffer (0 past the end, matching a
zero-initialised global). -/
def byteAt (bs : List Nat) (i : Nat) : Nat := bs.getD i 0

/-- Read a little-endian `uint16_t` at offset `i`. -/
def rd16 (bs : List Nat) (i : Nat) : Nat := byteAt bs i + 256 * byteAt bs (i + 1)

/-- Read a little-endian `uint32_t` at offset `i`. -/
def rd32 (bs : List Nat) (i : Nat) : Nat :=
  byteAt bs i + 256 * byteAt bs (i + 1) + 2 ^ 16 * byteAt bs (i + 2) +
    2 ^ 24 * byteAt bs (i + 3)

/-- A sensor-side datagram value: the fields the sensor writes into `pkt`
before sending.  `id` has 3 bytes, `v` has `n` 16-bit values. -/
structure Datagram where
  ver : Nat
  n : Nat
  id : List Nat
  seq : Nat
  ms : Nat
  v : List Nat
deriving Repr, DecidableEq

/-- Well-formedness of a datagram value (field ranges of the packed struct,
`1 ≤ n ≤ 32`, vector length `n`). -/
def Datagram.WF (p : Datagram) : Prop :=
  p.ver < 256 ∧ 1 ≤ p.n ∧ p.n ≤ 32 ∧ p.id.length = 3 ∧ (∀ b ∈ p.id, b < 256) ∧
    p.seq < 2 ^ 16 ∧ p.ms < 2 ^ 32 ∧ p.v.length = p.n ∧ ∀ x ∈ p.v, x < 2 ^ 16

instance (p : Datagram) : Decidable p.WF := by
  unfold Datagram.WF; infer_instance

/-- The byte length the sensor passes to `esp_now_send`
(`sensor-node.cpp:106`):
`sizeof(pkt.ver) + sizeof(pkt.n) + sizeof(pkt.id) + sizeof(pkt.seq) +
 sizeof(pkt.ms) + pkt.n*sizeof(uint16_t)`. -/
def sendLen (n : Nat) : Nat := 1 + 1 + 3 + 2 + 4 + n * 2

/-- The wire bytes of a datagram: the first `sendLen n` bytes of the packed
`TouchPacket` the sensor sends — header fields in layout order, then the
first `n` 16-bit values, all little-endian. -/
def encode (p : Datagram) : List Nat :=
  [p.ver % 256, p.n % 256, byteAt p.id 0 % 256, byteAt p.id 1 % 256,
    byteAt p.id 2 % 256] ++ le16 p.seq ++ le32 p.ms ++ (p.v.take p.n).flatMap le16

/-- Hub state: the single-slot mailbox `pkt` (75 raw bytes), the stored
sender MAC `lastSender`, and the `pktReady` flag (`usb-hub-node.cpp:18-20`). -/
structure HubState where
  pkt : List Nat
  lastSender : List Nat
  pktReady : Bool
deriving Repr, DecidableEq

/-- The hub receive callback `onRecv` (`usb-hub-node.cpp:22-27`): drop
payloads shorter than the 11-byte fixed header, otherwise copy
`min(len, sizeof(TouchPacket))` bytes over the mailbox prefix, store the
6-byte sender MAC, and raise `pktReady`. -/
def onRecv (st : HubState) (mac data : List Nat) (len : Nat) : HubState :=
  if len < HDR_LEN then st
  else
    { pkt := data.take (min len sizeofTouchPacket) ++
        st.pkt.drop (min len sizeofTouchPacket),
      lastSender := mac.take 6,
      pktReady := true }

/-- Field `n` of the mailbox copy `p` (packed offset 1). -/
def pktN (buf : List Nat) : Nat := byteAt buf 1

/-- Field `v[i]` of the mailbox copy (packed offset `11 + 2*i`). -/
def pktV (buf : List Nat) (i : Nat) : Nat := rd16 buf (11 + 2 * i)

end Touch

namespace Touch

/-- `1000 / TARGET_HZ` pacing computation (`sensor-node.cpp:96`). -/
def periodMs (hz : Nat) : Nat := if hz > 0 then 1000 / hz else 0

/-- The send-gate condition (`sensor-node.cpp:97`):
`periodMs == 0 || (now - lastSend) >= periodMs`, with `now - lastSend`
the wrapping `uint32_t` subtraction. -/
def shouldSend (hz now lastSend : Nat) : Bool :=
  periodMs hz = 0 || (now + 2 ^ 32 - lastSend) % 2 ^ 32 ≥ periodMs hz

/-- The header part of the wire image: the first 11 bytes of `encode`. -/
def hdrBytes (p : Datagram) : List Nat :=
  [p.ver % 256, p.n % 256, byteAt p.id 0 % 256, byteAt p.id 1 % 256,
    byteAt p.id 2 % 256] ++ le16 p.seq ++ le32 p.ms

/-- Reconstructing the datagram fields from received bytes, as the hub's
packed-struct field access after the `memcpy` does
(`usb-hub-node.cpp:24,45,58-66`): each field at its packed offset, `v` read
as `n` little-endian 16-bit values starting at offset 11. -/
def decode (bs : List Nat) : Datagram where
  ver := byteAt bs 0
  n := byteAt bs 1
  id := [byteAt bs 2, byteAt bs 3, byteAt bs 4]
  seq := rd16 bs 5
  ms := rd32 bs 7
  v := (List.range (byteAt bs 1)).map fun i => rd16 bs (11 + 2 * i)

/-- `lroundf`: round to the nearest integer, ties away from zero. -/
def lroundQ (x : ℚ) : ℤ := if 0 ≤ x then ⌊x + 1 / 2⌋ else -⌊-x + 1 / 2⌋

/-- The round-clamp-store of `sensor-node.cpp:102-104`:
`int v = lroundf(filt[i]); if (v < 0) v = 0; if (v > 65535) v = 65535;
pkt.v[i] = (uint16_t)v;`. -/
def storeV (x : ℚ) : ℤ :=
  let v0 := lroundQ x
  let v1 := if v0 < 0 then 0 else v0
  if v1 > 65535 then 65535 else v1

/-- What one send event publishes (`sensor-node.cpp:98-100`): `pkt.ms = now`
(millis, 32-bit), `pkt.seq = seq++` (16-bit post-increment with wrap). -/
structure SendOut where
  pktSeq : Nat
  pktMs : Nat
  seqAfter : Nat
deriving Repr, DecidableEq

/-- One send step from counter value `seq` at clock `now`. -/
def sendStep (seq now : Nat) : SendOut where
  pktSeq := seq % 2 ^ 16
  pktMs := now % 2 ^ 32
  seqAfter := (seq + 1) % 2 ^ 16

/-- `LPF_ALPHA = 0.2` (`sensor-node.cpp:15`), as an exact rational. -/
def LPF_ALPHA : ℚ := 2 / 10

/-- `BASELINE_ADAPT = 0.0015` (`sensor-node.cpp:16`), as an exact rational. -/
def BASELINE_ADAPT : ℚ := 15 / 10000

/-- The read-and-filter loop of one tick (`sensor-node.cpp:89-93`) over the
lists of raw samples, filter states and baselines: for each channel,
`filt[i]` is assigned first and `baseline[i]` is then updated from the
already-updated `filt[i]`. -/
def filterLoop : List ℚ → List ℚ → List ℚ → List ℚ × List ℚ
  | raw :: rs, f :: fs, b :: bs =>
    let f2 := (1 - LPF_ALPHA) * f + LPF_ALPHA * raw
    let b2 := (1 - BASELINE_ADAPT) * b + BASELINE_ADAPT * f2
    let rest := filterLoop rs fs bs
    (f2 :: rest.1, b2 :: rest.2)
  | _, _, _ => ([], [])

/-- One uppercase hexadecimal digit character (`%X` digit). -/
def hexDigitChar (x : Nat) : Char :=
  if x < 10 then Char.ofNat (48 + x) else Char.ofNat (55 + x)

/-- `%02X` of one byte value below 256: exactly two uppercase hex digits. -/
def byteHex (b : Nat) : List Char := [hexDigitChar (b / 16), hexDigitChar (b % 16)]

/-- Base-10 digits of `n`, most significant first, via repeated division;
fuel-based recursion (`fuel ≥ n` suffices). Empty for `n = 0`. -/
def toDecAux : Nat → Nat → List Char
  | 0, _ => []
  | _ + 1, 0 => []
  | fuel + 1, n + 1 =>
    toDecAux fuel ((n + 1) / 10) ++ [Char.ofNat (48 + (n + 1) % 10)]

/-- The decimal text `Serial.print` produces for an unsigned integer:
no leading zeros, `"0"` for zero. -/
def toDec (n : Nat) : List Char := if n = 0 then ['0'] else toDecAux n n

/-- The serialiser of `usb-hub-node.cpp:50-68`: the exact character sequence
of one CSV line, from the 6 sender-MAC bytes `m` and the mailbox snapshot
`buf`. The channel loop `for (i = 0; i < p.n && i < 32; i++)` runs for
`i ∈ range (min p.n 32)`. -/
def emitLine (m buf : List Nat) : List Char :=
  "touch,".toList ++
    (m.take 6).flatMap byteHex ++ [','] ++
    (byteHex (byteAt buf 2) ++ byteHex (byteAt buf 3) ++ byteHex (byteAt buf 4)) ++
    [','] ++
    toDec (rd16 buf 5) ++ [','] ++
    toDec (rd32 buf 7) ++ [','] ++
    toDec (pktN buf) ++
    ((List.range (min (pktN buf) 32)).flatMap fun i => ',' :: toDec (pktV buf i)) ++
    ['\n']

/-- Split a character list at every comma (for talking about the
comma-separated fields of an emitted line). -/
def splitOnComma : List Char → List (List Char)
  | [] => [[]]
  | c :: cs =>
    if c = ',' then [] :: splitOnComma cs
    else
      match splitOnComma cs with
      | [] => [[c]]
      | f :: rest => (c :: f) :: rest

/-- Decimal digit character. -/
def isDigitCh (c : Char) : Bool := '0' ≤ c && c ≤ '9'

/-- Uppercase hexadecimal digit character. -/
def isHexUpper (c : Char) : Bool := isDigitCh c || ('A' ≤ c && c ≤ 'F')

/-- An unsigned-decimal field as the spec's regex `\d+` plus the
no-leading-zeros clause: nonempty, all decimal digits, and a leading `'0'`
only in the literal `"0"`. -/
def IsDecField (l : List Char) : Prop :=
  l ≠ [] ∧ (∀ c ∈ l, isDigitCh c) ∧ (l.headD 'x' = '0' → l = ['0'])

end Touch

open Touch

/-- C2: the byte count passed to `esp_now_send` is `11 + 2·n` for
`n = pkt.n` (= NUM_CH), with no padding to the 75-byte struct size: the
encoded wire image of a well-formed datagram has exactly `sendLen p.n =
11 + 2·p.n` bytes, strictly less than `sizeof(TouchPacket)` when `n < 32`. -/
theorem C2_send_length (p : Datagram) (hwf : p.WF) :
    (Touch.encode p).length = Touch.sendLen p.n ∧
      Touch.sendLen p.n = 11 + 2 * p.n ∧
      (p.n < 32 → Touch.sendLen p.n < Touch.sizeofTouchPacket) := by
  obtain ⟨-, -, -, -, -, -, -, hvlen, -⟩ := hwf
  refine ⟨?_, by simp [Touch.sendLen]; ring, ?_⟩
  · simp only [Touch.encode, List.length_append, List.length_flatMap]
    rw [List.take_of_length_le (le_of_eq hvlen)]
    have : ∀ l : List Nat, (l.map (List.length ∘ Touch.le16)).sum = 2 * l.length := by
      intro l; induction l with
      | nil => simp
      | cons a t ih => simp [Touch.le16, ih]; ring
    simp [Touch.le16, Touch.le32, Touch.sendLen, List.flatMap, this, hvlen]
    ring
  · intro h
    simp only [Touch.sendLen, Touch.sizeofTouchPacket, Touch.MAX_CH]
    omega

/-- Witness for C2 at a concrete well-formed datagram with `n = 2`. -/
theorem C2_send_length_witness :
    (Touch.encode ⟨1, 2, [0xAA, 0xBB, 0xCC], 7, 99, [100, 200]⟩).length =
        Touch.sendLen 2 ∧
      Touch.sendLen 2 = 11 + 2 * 2 ∧
      (2 < 32 → Touch.sendLen 2 < Touch.sizeofTouchPacket) :=
  C2_send_length ⟨1, 2, [0xAA, 0xBB, 0xCC], 7, 99, [100, 200]⟩ (by decide)

/-- C6: a payload shorter than the 11-byte fixed header leaves the hub state
(mailbox, stored sender MAC, ready flag) unchanged, so the main loop never
emits a line for it. -/
theorem C6_undersize_dropped (st : Touch.HubState) (mac data : List Nat)
    (len : Nat) (h : len < 11) : Touch.onRecv st mac data len = st := by
  have : len < Touch.HDR_LEN := by simpa [Touch.HDR_LEN] using h
  simp [Touch.onRecv, this]

/-- Witness for C6: a 10-byte payload is dropped. -/
theorem C6_undersize_dropped_witness :
    Touch.onRecv ⟨List.replicate 75 0, List.replicate 6 0, false⟩
        (List.replicate 6 1) (List.replicate 10 2) 10 =
      ⟨List.replicate 75 0, List.replicate 6 0, false⟩ :=
  C6_undersize_dropped _ _ _ 10 (by decide)

/-- C10: integer division makes `periodMs = 0` for every `TARGET_HZ > 1000`,
so the send gate is true on every iteration, exactly as for `TARGET_HZ = 0`. -/
theorem C10_uncapped_above_1000 (hz : Nat) (h : hz > 1000) :
    Touch.periodMs hz = 0 ∧
      (∀ now lastSend : Nat, Touch.shouldSend hz now lastSend = true) ∧
      (∀ now lastSend : Nat,
        Touch.shouldSend hz now lastSend = Touch.shouldSend 0 now lastSend) := by
  have hp : Touch.periodMs hz = 0 := by
    simp only [Touch.periodMs, if_pos (by omega : hz > 0)]
    exact Nat.div_eq_of_lt h
  refine ⟨hp, ?_, ?_⟩
  · intro now lastSend; simp [Touch.shouldSend, hp]
  · intro now lastSend
    have h0 : Touch.periodMs 0 = 0 := by simp [Touch.periodMs]
    simp [Touch.shouldSend, hp, h0]

/-- Witness for C10 at `TARGET_HZ = 1001`. -/
theorem C10_uncapped_above_1000_witness :
    Touch.periodMs 1001 = 0 ∧
      (∀ now lastSend : Nat, Touch.shouldSend 1001 now lastSend = true) ∧
      (∀ now lastSend : Nat,
        Touch.shouldSend 1001 now lastSend = Touch.shouldSend 0 now lastSend) :=
  C10_uncapped_above_1000 1001 (by decide)

namespace Touch

theorem hdrBytes_length (p : Datagram) : (hdrBytes p).length = 11 := by
  simp [hdrBytes, le16, le32]

theorem encode_eq_hdr_append (p : Datagram) :
    encode p = hdrBytes p ++ (p.v.take p.n).flatMap le16 := by
  simp [encode, hdrBytes]

theorem byteAt_encode_tail (p : Datagram) (j : Nat) :
    byteAt (encode p) (11 + j) = byteAt ((p.v.take p.n).flatMap le16) j := by
  rw [encode_eq_hdr_append, byteAt, byteAt,
    List.getD_append_right _ _ _ _ (by rw [hdrBytes_length]; omega)]
  rw [hdrBytes_length, Nat.add_sub_cancel_left]

theorem byteAt_flatMap_le16 (vs : List Nat) (i : Nat) :
    byteAt (vs.flatMap le16) (2 * i) = vs.getD i 0 % 256 ∧
      byteAt (vs.flatMap le16) (2 * i + 1) = vs.getD i 0 / 256 % 256 := by
  induction vs generalizing i with
  | nil => simp [byteAt]
  | cons x t ih =>
    have hflat : (x :: t).flatMap le16 = x % 256 :: x / 256 % 256 :: t.flatMap le16 := by
      simp [le16]
    cases i with
    | zero => rw [hflat]; simp [byteAt]
    | succ j =>
      rw [hflat]
      have e1 : 2 * (j + 1) = 2 * j + 1 + 1 := by ring
      have e2 : 2 * (j + 1) + 1 = 2 * j + 1 + 1 + 1 := by ring
      constructor
      · rw [e1]
        simp only [byteAt, List.getD_cons_succ, List.getD_cons_succ]
        simpa [byteAt] using (ih j).1
      · rw [e2]
        simp only [byteAt, List.getD_cons_succ, List.getD_cons_succ]
        simpa [byteAt] using (ih j).2

theorem rd16_flatMap_le16 (vs : List Nat) (i : Nat) (h : i < vs.length)
    (hb : ∀ x ∈ vs, x < 2 ^ 16) :
    rd16 (vs.flatMap le16) (2 * i) = vs.getD i 0 := by
  have hx : vs.getD i 0 < 2 ^ 16 := by
    rw [List.getD_eq_getElem _ _ h]; exact hb _ (List.getElem_mem h)
  have h1 := (byteAt_flatMap_le16 vs i).1
  have h2 := (byteAt_flatMap_le16 vs i).2
  rw [rd16, h1, h2]
  omega

end Touch

/-- C3: round-trip — encoding a well-formed datagram value into its
`11 + 2·n` packed little-endian wire bytes and decoding those bytes the way
the hub's packed-struct access does yields all fields equal to the original,
with value vector of length `n`. -/
theorem C3_roundtrip (p : Datagram) (h : p.WF) :
    Touch.decode (Touch.encode p) = p := by
  obtain ⟨hver, hn1, hn2, hidlen, hidb, hseq, hms, hvlen, hvb⟩ := h
  obtain ⟨i0, i1, i2, hid⟩ := List.length_eq_three.mp hidlen
  have hi0 : i0 < 256 := hidb i0 (by rw [hid]; simp)
  have hi1 : i1 < 256 := hidb i1 (by rw [hid]; simp)
  have hi2 : i2 < 256 := hidb i2 (by rw [hid]; simp)
  have htake : p.v.take p.n = p.v := List.take_of_length_le (le_of_eq hvlen)
  have henc : Touch.encode p =
      p.ver % 256 :: p.n % 256 :: i0 % 256 :: i1 % 256 :: i2 % 256 ::
        p.seq % 256 :: p.seq / 256 % 256 :: p.ms % 256 :: p.ms / 256 % 256 ::
        p.ms / 2 ^ 16 % 256 :: p.ms / 2 ^ 24 % 256 :: p.v.flatMap Touch.le16 := by
    simp [Touch.encode, Touch.le16, Touch.le32, hid, htake, Touch.byteAt]
  have hbn : Touch.byteAt (Touch.encode p) 1 = p.n := by
    rw [henc]; simp [Touch.byteAt]; omega
  have hv : ∀ i, i < p.n → Touch.rd16 (Touch.encode p) (11 + 2 * i) = p.v.getD i 0 := by
    intro i hi
    have e1 : 11 + 2 * i + 1 = 11 + (2 * i + 1) := by omega
    rw [Touch.rd16, Touch.byteAt_encode_tail, e1, Touch.byteAt_encode_tail, htake]
    have := Touch.rd16_flatMap_le16 p.v i (by omega) hvb
    rw [Touch.rd16] at this
    exact this
  suffices hs : Touch.decode (Touch.encode p) = ⟨p.ver, p.n, p.id, p.seq, p.ms, p.v⟩ by
    rw [hs]
  unfold Touch.decode
  simp only [Datagram.mk.injEq]
  refine ⟨?_, hbn, ?_, ?_, ?_, ?_⟩
  · rw [henc]; simp [Touch.byteAt]; omega
  · rw [hid, henc]; simp [Touch.byteAt]; omega
  · rw [henc]; simp [Touch.rd16, Touch.byteAt]; omega
  · rw [henc]; simp [Touch.rd32, Touch.byteAt]; omega
  · rw [hbn]
    refine List.ext_getElem (by simp [hvlen]) ?_
    intro i h1 h2
    simp only [List.getElem_map, List.getElem_range]
    rw [hv i (by simpa using h1), List.getD_eq_getElem _ _ h2]

/-- Witness for C3: round-trip at a concrete well-formed datagram with
`n = 2` and extreme `seq`/`ms` values. -/
theorem C3_roundtrip_witness :
    Touch.decode (Touch.encode ⟨1, 2, [0xA1, 0xB2, 0xC3], 65535, 4294967295,
        [0, 65535]⟩) =
      ⟨1, 2, [0xA1, 0xB2, 0xC3], 65535, 4294967295, [0, 65535]⟩ :=
  C3_roundtrip _ (by decide)

/-- C4: every transmitted channel value is obtained by rounding the filtered
value to the nearest integer (ties away from zero, as `lroundf`) and
clamping into `[0, 65535]`; hence it always satisfies `0 ≤ v ≤ 65535`. -/
theorem C4_value_rounded_clamped (x : ℚ) :
    Touch.storeV x = max 0 (min 65535 (Touch.lroundQ x)) ∧
      |(Touch.lroundQ x : ℚ) - x| ≤ 1 / 2 ∧
      0 ≤ Touch.storeV x ∧ Touch.storeV x ≤ 65535 := by
  refine ⟨?_, ?_, ?_, ?_⟩
  · simp only [Touch.storeV]; split_ifs <;> omega
  · unfold Touch.lroundQ
    rcases le_or_lt 0 x with h | h
    · rw [if_pos h, abs_le]
      have h1 : (⌊x + 1 / 2⌋ : ℚ) ≤ x + 1 / 2 := Int.floor_le _
      have h2 : x + 1 / 2 - 1 < (⌊x + 1 / 2⌋ : ℚ) := Int.sub_one_lt_floor _
      constructor <;> linarith
    · rw [if_neg (not_le.mpr h), abs_le]
      have h1 : (⌊-x + 1 / 2⌋ : ℚ) ≤ -x + 1 / 2 := Int.floor_le _
      have h2 : -x + 1 / 2 - 1 < (⌊-x + 1 / 2⌋ : ℚ) := Int.sub_one_lt_floor _
      push_cast
      constructor <;> linarith
  · simp only [Touch.storeV]; split_ifs <;> omega
  · simp only [Touch.storeV]; split_ifs <;> omega

/-- C5: across two consecutive sends the published `seq` increments by
exactly 1 modulo 2^16 (so it is strictly increasing mod 2^16, including the
65535 → 0 wrap), and with a non-decreasing millisecond clock the published
`ms` advances by the elapsed time modulo 2^32 (non-decreasing mod 2^32). -/
theorem C5_seq_increment_ms_monotone (seq t1 t2 : Nat) (ht : t1 ≤ t2) :
    (Touch.sendStep (Touch.sendStep seq t1).seqAfter t2).pktSeq =
        ((Touch.sendStep seq t1).pktSeq + 1) % 2 ^ 16 ∧
      ((Touch.sendStep (Touch.sendStep seq t1).seqAfter t2).pktSeq + 2 ^ 16 -
          (Touch.sendStep seq t1).pktSeq) % 2 ^ 16 = 1 ∧
      (Touch.sendStep (Touch.sendStep seq t1).seqAfter t2).pktMs =
        ((Touch.sendStep seq t1).pktMs + (t2 - t1)) % 2 ^ 32 := by
  simp only [Touch.sendStep]
  refine ⟨?_, ?_, ?_⟩ <;> omega

/-- Witness for C5 at the 65535 → 0 wrap with clock 5 → 7. -/
theorem C5_seq_increment_ms_monotone_witness :
    (Touch.sendStep (Touch.sendStep 65535 5).seqAfter 7).pktSeq =
        ((Touch.sendStep 65535 5).pktSeq + 1) % 2 ^ 16 ∧
      ((Touch.sendStep (Touch.sendStep 65535 5).seqAfter 7).pktSeq + 2 ^ 16 -
          (Touch.sendStep 65535 5).pktSeq) % 2 ^ 16 = 1 ∧
      (Touch.sendStep (Touch.sendStep 65535 5).seqAfter 7).pktMs =
        ((Touch.sendStep 65535 5).pktMs + (7 - 5)) % 2 ^ 32 :=
  C5_seq_increment_ms_monotone 65535 5 7 (by decide)

/-- C7: on one tick, for every channel index in range, the new `filt[i]` is
`(1 − α)·filt[i] + α·raw[i]`, and the new `baseline[i]` is
`(1 − β)·baseline[i] + β·(new filt[i])` — the baseline tracks the
already-updated filtered value, not the raw sample. -/
theorem C7_filter_then_baseline (raws filt base : List ℚ) (i : Nat)
    (h : i < raws.length ∧ i < filt.length ∧ i < base.length) :
    (Touch.filterLoop raws filt base).1.getD i 0 =
        (1 - Touch.LPF_ALPHA) * filt.getD i 0 +
          Touch.LPF_ALPHA * raws.getD i 0 ∧
      (Touch.filterLoop raws filt base).2.getD i 0 =
        (1 - Touch.BASELINE_ADAPT) * base.getD i 0 +
          Touch.BASELINE_ADAPT * ((Touch.filterLoop raws filt base).1.getD i 0) := by
  induction raws generalizing filt base i with
  | nil => simp at h
  | cons r rs ih =>
    cases filt with
    | nil => simp at h
    | cons f fs =>
      cases base with
      | nil => simp at h
      | cons b bs =>
        cases i with
        | zero => simp [Touch.filterLoop]
        | succ j =>
          simp only [Touch.filterLoop, List.getD_cons_succ]
          exact ih fs bs j (by simp at h ⊢; omega)

/-- Witness for C7 at one channel with raw 10, filt 4, baseline 2. -/
theorem C7_filter_then_baseline_witness :
    (Touch.filterLoop [10] [4] [2]).1.getD 0 0 =
        (1 - Touch.LPF_ALPHA) * ([(4 : ℚ)]).getD 0 0 +
          Touch.LPF_ALPHA * ([(10 : ℚ)]).getD 0 0 ∧
      (Touch.filterLoop [10] [4] [2]).2.getD 0 0 =
        (1 - Touch.BASELINE_ADAPT) * ([(2 : ℚ)]).getD 0 0 +
          Touch.BASELINE_ADAPT * ((Touch.filterLoop [10] [4] [2]).1.getD 0 0) :=
  C7_filter_then_baseline [10] [4] [2] 0 (by simp)

namespace Touch

theorem hexDigitChar_hex : ∀ x, x < 16 → isHexUpper (hexDigitChar x) = true := by
  decide

theorem hexDigitChar_no_comma : ∀ x, x < 16 → hexDigitChar x ≠ ',' := by
  decide

theorem byteHex_hex (b : Nat) (h : b < 256) :
    ∀ c ∈ byteHex b, isHexUpper c = true := by
  intro c hc
  rw [byteHex, List.mem_cons, List.mem_singleton] at hc
  rcases hc with rfl | rfl
  · exact hexDigitChar_hex (b / 16) (by omega)
  · exact hexDigitChar_hex (b % 16) (by omega)

theorem flatMap_byteHex_length (l : List Nat) :
    (l.flatMap byteHex).length = 2 * l.length := by
  induction l with
  | nil => simp
  | cons x t ih => simp [byteHex, ih]; ring

theorem flatMap_byteHex_hex (l : List Nat) (hb : ∀ b ∈ l, b < 256) :
    ∀ c ∈ l.flatMap byteHex, isHexUpper c = true := by
  intro c hc
  obtain ⟨b, hbm, hcb⟩ := List.mem_flatMap.mp hc
  exact byteHex_hex b (hb b hbm) c hcb

theorem byteAt_lt_256 (buf : List Nat) (hb : ∀ b ∈ buf, b < 256) (j : Nat) :
    byteAt buf j < 256 := by
  unfold byteAt
  rcases lt_or_ge j buf.length with h | h
  · rw [List.getD_eq_getElem _ _ h]; exact hb _ (List.getElem_mem h)
  · rw [List.getD_eq_default _ _ h]; omega

theorem toDecAux_zero (fuel : Nat) : toDecAux fuel 0 = [] := by
  cases fuel <;> rfl

theorem digitChar_digit : ∀ d, d < 10 → isDigitCh (Char.ofNat (48 + d)) = true := by
  decide

theorem toDecAux_digits (fuel : Nat) :
    ∀ n, ∀ c ∈ toDecAux fuel n, isDigitCh c = true := by
  induction fuel with
  | zero => intro n c hc; simp [toDecAux] at hc
  | succ m ih =>
    intro n c hc
    cases n with
    | zero => simp [toDecAux] at hc
    | succ k =>
      rw [toDecAux] at hc
      rcases List.mem_append.mp hc with h | h
      · exact ih _ _ h
      · have : c = Char.ofNat (48 + (k + 1) % 10) := by simpa using h
        rw [this]
        exact digitChar_digit _ (Nat.mod_lt _ (by omega))

theorem toDecAux_head_ne_zero :
    ∀ n, ∀ fuel, n ≠ 0 → n ≤ fuel →
      ∃ c cs, toDecAux fuel n = c :: cs ∧ c ≠ '0' := by
  intro n
  induction n using Nat.strong_induction_on with
  | _ n ih =>
    intro fuel hn hfuel
    obtain ⟨m, rfl⟩ : ∃ m, fuel = m + 1 := ⟨fuel - 1, by omega⟩
    obtain ⟨k, rfl⟩ : ∃ k, n = k + 1 := ⟨n - 1, by omega⟩
    rw [toDecAux]
    by_cases h10 : k + 1 < 10
    · have hq : (k + 1) / 10 = 0 := Nat.div_eq_of_lt h10
      rw [hq, toDecAux_zero]
      refine ⟨Char.ofNat (48 + (k + 1) % 10), [], rfl, ?_⟩
      have hm10 : (k + 1) % 10 = k + 1 := Nat.mod_eq_of_lt h10
      rw [hm10]
      have hne : ∀ d, d < 10 → d ≠ 0 → Char.ofNat (48 + d) ≠ '0' := by decide
      exact hne _ h10 (by omega)
    · have hq : (k + 1) / 10 ≠ 0 := by omega
      have hlt : (k + 1) / 10 < k + 1 := Nat.div_lt_self (by omega) (by omega)
      obtain ⟨c, cs, heq, hc⟩ := ih _ hlt m hq (by omega)
      rw [heq]
      exact ⟨c, cs ++ [Char.ofNat (48 + (k + 1) % 10)], rfl, hc⟩

theorem toDec_decField (n : Nat) : IsDecField (toDec n) := by
  unfold toDec
  split_ifs with h
  · exact ⟨by simp, by decide, fun _ => rfl⟩
  · obtain ⟨c, cs, heq, hc⟩ := toDecAux_head_ne_zero n n h le_rfl
    rw [heq]
    refine ⟨by simp, ?_, ?_⟩
    · intro c' hcm
      exact toDecAux_digits n n c' (heq ▸ hcm)
    · intro hh
      exact (hc (by simpa using hh)).elim

theorem digits_no_comma (l : List Char) (h : ∀ c ∈ l, isDigitCh c = true) :
    ',' ∉ l := fun hm => absurd (h ',' hm) (by decide)

theorem hexes_no_comma (l : List Char) (h : ∀ c ∈ l, isHexUpper c = true) :
    ',' ∉ l := fun hm => absurd (h ',' hm) (by decide)

theorem decField_no_comma (l : List Char) (h : IsDecField l) : ',' ∉ l :=
  digits_no_comma l h.2.1

theorem splitOnComma_no_comma (a : List Char) (h : ',' ∉ a) :
    splitOnComma a = [a] := by
  induction a with
  | nil => rfl
  | cons c cs ih =>
    have hc : ¬(c = ',') := fun e => h (by simp [e])
    have hcs : ',' ∉ cs := fun m => h (by simp [m])
    rw [splitOnComma, if_neg hc, ih hcs]

theorem splitOnComma_append (a b : List Char) (h : ',' ∉ a) :
    splitOnComma (a ++ ',' :: b) = a :: splitOnComma b := by
  induction a with
  | nil => rw [List.nil_append, splitOnComma, if_pos rfl]
  | cons c cs ih =>
    have hc : ¬(c = ',') := fun e => h (by simp [e])
    have hcs : ',' ∉ cs := fun m => h (by simp [m])
    rw [List.cons_append, splitOnComma, if_neg hc, ih hcs]

theorem splitOnComma_chain (fields : List (List Char)) :
    ∀ pre tail : List Char, ',' ∉ pre → (∀ f ∈ fields, ',' ∉ f) → ',' ∉ tail →
      (splitOnComma (pre ++ (fields.flatMap fun f => ',' :: f) ++ tail)).length =
          1 + fields.length ∧
        ∀ j, j + 1 < 1 + fields.length →
          (splitOnComma (pre ++ (fields.flatMap fun f => ',' :: f) ++ tail)).getD
              j [] = (pre :: fields).getD j [] := by
  induction fields with
  | nil =>
    intro pre tail hpre hf htail
    have : ',' ∉ pre ++ tail := by
      intro hm; rcases List.mem_append.mp hm with h | h
      · exact hpre h
      · exact htail h
    rw [List.flatMap_nil, List.append_nil, splitOnComma_no_comma _ this]
    exact ⟨rfl, fun j hj => absurd hj (by simp)⟩
  | cons f fs ih =>
    intro pre tail hpre hf htail
    have hassoc : pre ++ ((f :: fs).flatMap fun g => ',' :: g) ++ tail =
        pre ++ ',' :: (f ++ (fs.flatMap fun g => ',' :: g) ++ tail) := by
      simp [List.flatMap_cons]
    rw [hassoc, splitOnComma_append _ _ hpre]
    obtain ⟨hlen, hget⟩ := ih f tail (hf f (by simp))
      (fun g hg => hf g (by simp [hg])) htail
    constructor
    · simp only [List.length_cons]
      rw [hlen]
      omega
    · intro j hj
      cases j with
      | zero => rfl
      | succ i =>
        simp only [List.getD_cons_succ]
        exact hget i (by simp only [List.length_cons] at hj ⊢; omega)

end Touch

namespace Touch

theorem touch_comma_toList : "touch,".toList = "touch".toList ++ [','] := by
  decide

theorem emitLine_eq_chain (m buf : List Nat) :
    emitLine m buf = "touch".toList ++
      ((([(m.take 6).flatMap byteHex,
          byteHex (byteAt buf 2) ++ byteHex (byteAt buf 3) ++
            byteHex (byteAt buf 4),
          toDec (rd16 buf 5), toDec (rd32 buf 7), toDec (pktN buf)] ++
          (List.range (min (pktN buf) 32)).map fun i =>
            toDec (pktV buf i)).flatMap fun f => ',' :: f) ++ ['\n']) := by
  simp [emitLine, touch_comma_toList, List.flatMap_append, List.flatMap_cons,
    List.flatMap_map, List.append_assoc]

end Touch

/-- C8: every telemetry line the hub emits matches
`^touch,[0-9A-F]{12},[0-9A-F]{6},\d+,\d+,\d+(,\d+){0,32}\n$`: the literal
`touch,` prefix, 12 uppercase-hex MAC digits, a comma, 6 uppercase-hex ID
digits, then `seq`, `ms`, `n` as unsigned decimals with no leading zeros,
then exactly `min(n, 32)` comma-prefixed decimal channel fields, terminated
by a single line feed — comma-separated, no quoting or escaping. -/
theorem C8_line_format (m buf : List Nat) (hm : m.length = 6)
    (hmb : ∀ b ∈ m, b < 256) (hb : ∀ b ∈ buf, b < 256) :
    ∃ (macH idH seqD msD nD : List Char) (chans : List (List Char)),
      Touch.emitLine m buf =
        "touch,".toList ++ macH ++ [','] ++ idH ++ [','] ++ seqD ++ [','] ++
          msD ++ [','] ++ nD ++ (chans.flatMap fun f => ',' :: f) ++ ['\n'] ∧
      macH.length = 12 ∧ (∀ c ∈ macH, Touch.isHexUpper c = true) ∧
      idH.length = 6 ∧ (∀ c ∈ idH, Touch.isHexUpper c = true) ∧
      Touch.IsDecField seqD ∧ Touch.IsDecField msD ∧ Touch.IsDecField nD ∧
      (∀ f ∈ chans, Touch.IsDecField f) ∧
      chans.length = min (Touch.pktN buf) 32 ∧ chans.length ≤ 32 := by
  refine ⟨(m.take 6).flatMap Touch.byteHex,
    Touch.byteHex (Touch.byteAt buf 2) ++ Touch.byteHex (Touch.byteAt buf 3) ++
      Touch.byteHex (Touch.byteAt buf 4),
    Touch.toDec (Touch.rd16 buf 5), Touch.toDec (Touch.rd32 buf 7),
    Touch.toDec (Touch.pktN buf),
    (List.range (min (Touch.pktN buf) 32)).map fun i =>
      Touch.toDec (Touch.pktV buf i),
    ?_, ?_, ?_, ?_, ?_, ?_, ?_, ?_, ?_, ?_, ?_⟩
  · simp [Touch.emitLine, List.flatMap_map]
  · rw [Touch.flatMap_byteHex_length, List.length_take, hm]; rfl
  · exact Touch.flatMap_byteHex_hex _ fun b hbm => hmb b (List.take_subset _ _ hbm)
  · simp [Touch.byteHex]
  · intro c hc
    rcases List.mem_append.mp hc with hc | hc
    · rcases List.mem_append.mp hc with hc | hc
      · exact Touch.byteHex_hex _ (Touch.byteAt_lt_256 buf hb 2) c hc
      · exact Touch.byteHex_hex _ (Touch.byteAt_lt_256 buf hb 3) c hc
    · exact Touch.byteHex_hex _ (Touch.byteAt_lt_256 buf hb 4) c hc
  · exact Touch.toDec_decField _
  · exact Touch.toDec_decField _
  · exact Touch.toDec_decField _
  · intro f hf
    obtain ⟨i, -, rfl⟩ := List.mem_map.mp hf
    exact Touch.toDec_decField _
  · simp
  · simp

/-- Witness for C8 at spec scenario 1: sender MAC `A1B2C3D4E5F6`, ID
`D4E5F6`, seq 42, ms 123456, n 4, four channel values 5000. -/
theorem C8_line_format_witness :
    ∃ (macH idH seqD msD nD : List Char) (chans : List (List Char)),
      Touch.emitLine [0xA1, 0xB2, 0xC3, 0xD4, 0xE5, 0xF6]
          [1, 4, 0xD4, 0xE5, 0xF6, 42, 0, 0x40, 0xE2, 0x01, 0x00,
            0x88, 0x13, 0x88, 0x13, 0x88, 0x13, 0x88, 0x13] =
        "touch,".toList ++ macH ++ [','] ++ idH ++ [','] ++ seqD ++ [','] ++
          msD ++ [','] ++ nD ++ (chans.flatMap fun f => ',' :: f) ++ ['\n'] ∧
      macH.length = 12 ∧ (∀ c ∈ macH, Touch.isHexUpper c = true) ∧
      idH.length = 6 ∧ (∀ c ∈ idH, Touch.isHexUpper c = true) ∧
      Touch.IsDecField seqD ∧ Touch.IsDecField msD ∧ Touch.IsDecField nD ∧
      (∀ f ∈ chans, Touch.IsDecField f) ∧
      chans.length = min (Touch.pktN [1, 4, 0xD4, 0xE5, 0xF6, 42, 0, 0x40,
        0xE2, 0x01, 0x00, 0x88, 0x13, 0x88, 0x13, 0x88, 0x13, 0x88, 0x13]) 32 ∧
      chans.length ≤ 32 :=
  C8_line_format _ _ (by decide) (by decide) (by decide)

namespace Touch

theorem emitLine_split (m buf : List Nat) (hmb : ∀ b ∈ m, b < 256)
    (hb : ∀ b ∈ buf, b < 256) :
    (splitOnComma (emitLine m buf)).length = 6 + min (pktN buf) 32 ∧
      (1 ≤ min (pktN buf) 32 →
        (splitOnComma (emitLine m buf)).getD 5 [] = toDec (pktN buf)) := by
  rw [emitLine_eq_chain]
  have hf : ∀ f ∈ ([(m.take 6).flatMap byteHex,
      byteHex (byteAt buf 2) ++ byteHex (byteAt buf 3) ++ byteHex (byteAt buf 4),
      toDec (rd16 buf 5), toDec (rd32 buf 7), toDec (pktN buf)] ++
      (List.range (min (pktN buf) 32)).map fun i => toDec (pktV buf i)),
      ',' ∉ f := by
    intro f hfm
    rcases List.mem_append.mp hfm with hfm | hfm
    · simp only [List.mem_cons, List.mem_singleton, List.not_mem_nil,
        or_false] at hfm
      rcases hfm with rfl | rfl | rfl | rfl | rfl
      · exact hexes_no_comma _ (flatMap_byteHex_hex _ fun b hbm =>
          hmb b (List.take_subset _ _ hbm))
      · refine hexes_no_comma _ ?_
        intro c hc
        rcases List.mem_append.mp hc with hc | hc
        · rcases List.mem_append.mp hc with hc | hc
          · exact byteHex_hex _ (byteAt_lt_256 buf hb 2) c hc
          · exact byteHex_hex _ (byteAt_lt_256 buf hb 3) c hc
        · exact byteHex_hex _ (byteAt_lt_256 buf hb 4) c hc
      · exact decField_no_comma _ (toDec_decField _)
      · exact decField_no_comma _ (toDec_decField _)
      · exact decField_no_comma _ (toDec_decField _)
    · obtain ⟨i, -, rfl⟩ := List.mem_map.mp hfm
      exact decField_no_comma _ (toDec_decField _)
  obtain ⟨hlen, hget⟩ := splitOnComma_chain _ "touch".toList ['\n']
    (by decide) hf (by decide)
  rw [← List.append_assoc]
  constructor
  · rw [hlen]; simp; omega
  · intro h1
    rw [hget 5 (by simp; omega)]
    simp

end Touch

/-- C1 counterexample: a 100-byte inbound datagram with declared `n = 40`
(spec scenario “Oversize inbound”) is accepted, the emitted line has exactly
32 channel fields (38 comma-separated fields in all), but the `<n>` field on
the line (6th field) is the unclamped declared count `"40"`, not `"32"`. -/
theorem C1_counterexample :
    Touch.pktN (Touch.onRecv ⟨List.replicate 75 0, List.replicate 6 0, false⟩
        (List.replicate 6 0) (1 :: 40 :: List.replicate 98 0) 100).pkt = 40 ∧
      (Touch.splitOnComma (Touch.emitLine (List.replicate 6 0)
          (Touch.onRecv ⟨List.replicate 75 0, List.replicate 6 0, false⟩
            (List.replicate 6 0) (1 :: 40 :: List.replicate 98 0)
            100).pkt)).length = 6 + 32 ∧
      (Touch.splitOnComma (Touch.emitLine (List.replicate 6 0)
          (Touch.onRecv ⟨List.replicate 75 0, List.replicate 6 0, false⟩
            (List.replicate 6 0) (1 :: 40 :: List.replicate 98 0)
            100).pkt)).getD 5 [] = ['4', '0'] ∧
      (['4', '0'] : List Char) ≠ ['3', '2'] := by
  decide

/-- C1 (amended): for every accepted inbound datagram with declared channel
count `n > 32`, the emitted serial line contains exactly 32 numeric channel
fields, but the `<n>` field printed on the line is the *declared* `n`
(printed unclamped), not `min(n, 32)`. -/
theorem C1_amended_oversize (m buf : List Nat) (hmb : ∀ b ∈ m, b < 256)
    (hb : ∀ b ∈ buf, b < 256) (hn : 32 < Touch.pktN buf) :
    (Touch.splitOnComma (Touch.emitLine m buf)).length = 6 + 32 ∧
      (Touch.splitOnComma (Touch.emitLine m buf)).getD 5 [] =
        Touch.toDec (Touch.pktN buf) := by
  obtain ⟨hlen, hget⟩ := Touch.emitLine_split m buf hmb hb
  have hmin : min (Touch.pktN buf) 32 = 32 := by omega
  exact ⟨by rw [hlen, hmin], hget (by omega)⟩

/-- Witness for the amended C1 at a mailbox with declared `n = 40`. -/
theorem C1_amended_oversize_witness :
    (Touch.splitOnComma (Touch.emitLine (List.replicate 6 0)
        (1 :: 40 :: List.replicate 73 0))).length = 6 + 32 ∧
      (Touch.splitOnComma (Touch.emitLine (List.replicate 6 0)
          (1 :: 40 :: List.replicate 73 0))).getD 5 [] =
        Touch.toDec (Touch.pktN (1 :: 40 :: List.replicate 73 0)) :=
  C1_amended_oversize _ _ (by decide) (by decide) (by decide)

/-- C9: the hub never checks the payload length against the declared channel
count. For any accepted datagram (`len ≥ 11`): the receive copy overwrites
only the first `min(len, 75)` mailbox bytes, leaving the rest from before;
the emitted line still has `min(n, 32)` channel fields for the declared `n`;
and every channel value whose two bytes lie at or beyond offset `len` is
read back from the old mailbox contents (stale data or boot-time zeros). -/
theorem C9_no_length_validation (st : Touch.HubState) (mac data : List Nat)
    (len : Nat) (hlen : 11 ≤ len) (hdata : data.length = len)
    (hpkt : st.pkt.length = 75) (hmb : ∀ b ∈ mac, b < 256)
    (hdb : ∀ b ∈ data, b < 256) (hsb : ∀ b ∈ st.pkt, b < 256) :
    (∀ j < 75, Touch.byteAt (Touch.onRecv st mac data len).pkt j =
        if j < min len 75 then Touch.byteAt data j
        else Touch.byteAt st.pkt j) ∧
      (Touch.splitOnComma
          (Touch.emitLine (Touch.onRecv st mac data len).lastSender
            (Touch.onRecv st mac data len).pkt)).length =
        6 + min (Touch.pktN (Touch.onRecv st mac data len).pkt) 32 ∧
      ∀ i < min (Touch.pktN (Touch.onRecv st mac data len).pkt) 32,
        len ≤ 11 + 2 * i →
          Touch.pktV (Touch.onRecv st mac data len).pkt i =
            Touch.pktV st.pkt i := by
  have hnot : ¬(len < Touch.HDR_LEN) := by
    simp only [Touch.HDR_LEN]; omega
  have hrec : Touch.onRecv st mac data len =
      ⟨data.take (min len Touch.sizeofTouchPacket) ++
        st.pkt.drop (min len Touch.sizeofTouchPacket), mac.take 6, true⟩ := by
    simp only [Touch.onRecv, if_neg hnot]
  have hsz : Touch.sizeofTouchPacket = 75 := by decide
  have hklen : min len 75 ≤ len := by omega
  have htl : (data.take (min len 75)).length = min len 75 := by
    rw [List.length_take, hdata]; omega
  have hbytes : ∀ j < 75, Touch.byteAt (Touch.onRecv st mac data len).pkt j =
      if j < min len 75 then Touch.byteAt data j
      else Touch.byteAt st.pkt j := by
    intro j hj
    rw [hrec, hsz]
    by_cases hjk : j < min len 75
    · rw [if_pos hjk]
      show (data.take (min len 75) ++ st.pkt.drop (min len 75)).getD j 0 =
        Touch.byteAt data j
      rw [List.getD_append _ _ _ _ (by rw [htl]; exact hjk)]
      rw [Touch.byteAt, List.getD_eq_getD_get?, List.getD_eq_getD_get?, List.get?_take hjk]
    · rw [if_neg hjk]
      show (data.take (min len 75) ++ st.pkt.drop (min len 75)).getD j 0 =
        Touch.byteAt st.pkt j
      rw [List.getD_append_right _ _ _ _ (by rw [htl]; omega)]
      rw [htl, Touch.byteAt, List.getD_eq_getD_get?, List.getD_eq_getD_get?, List.get?_drop]
      rw [show min len 75 + (j - min len 75) = j by omega]
  refine ⟨hbytes, ?_, ?_⟩
  · have hm2 : ∀ b ∈ (Touch.onRecv st mac data len).lastSender, b < 256 := by
      rw [hrec]
      exact fun b hbm => hmb b (List.take_subset _ _ hbm)
    have hb2 : ∀ b ∈ (Touch.onRecv st mac data len).pkt, b < 256 := by
      rw [hrec]
      intro b hbm
      rcases List.mem_append.mp hbm with h | h
      · exact hdb b (List.take_subset _ _ h)
      · exact hsb b (List.drop_subset _ _ h)
    exact (Touch.emitLine_split _ _ hm2 hb2).1
  · intro i hi hstale
    have hi31 : i ≤ 31 := by omega
    simp only [Touch.pktV, Touch.rd16]
    rw [hbytes (11 + 2 * i) (by omega), hbytes (11 + 2 * i + 1) (by omega),
      if_neg (by omega), if_neg (by omega)]

/-- Witness for C9: an 11-byte payload declaring `n = 5` over a mailbox
previously filled with byte value 7 — all five emitted channel values come
from the old mailbox bytes. -/
theorem C9_no_length_validation_witness :
    (∀ j < 75, Touch.byteAt (Touch.onRecv
          ⟨List.replicate 75 7, List.replicate 6 0, false⟩
          (List.replicate 6 2) (1 :: 5 :: List.replicate 9 3) 11).pkt j =
        if j < min 11 75
        then Touch.byteAt (1 :: 5 :: List.replicate 9 3) j
        else Touch.byteAt (List.replicate 75 7) j) ∧
      (Touch.splitOnComma
          (Touch.emitLine (Touch.onRecv
              ⟨List.replicate 75 7, List.replicate 6 0, false⟩
              (List.replicate 6 2) (1 :: 5 :: List.replicate 9 3)
              11).lastSender
            (Touch.onRecv ⟨List.replicate 75 7, List.replicate 6 0, false⟩
              (List.replicate 6 2) (1 :: 5 :: List.replicate 9 3)
              11).pkt)).length =
        6 + min (Touch.pktN (Touch.onRecv
          ⟨List.replicate 75 7, List.replicate 6 0, false⟩
          (List.replicate 6 2) (1 :: 5 :: List.replicate 9 3) 11).pkt) 32 ∧
      ∀ i < min (Touch.pktN (Touch.onRecv
          ⟨List.replicate 75 7, List.replicate 6 0, false⟩
          (List.replicate 6 2) (1 :: 5 :: List.replicate 9 3) 11).pkt) 32,
        11 ≤ 11 + 2 * i →
          Touch.pktV (Touch.onRecv
              ⟨List.replicate 75 7, List.replicate 6 0, false⟩
              (List.replicate 6 2) (1 :: 5 :: List.replicate 9 3) 11).pkt i =
            Touch.pktV (List.replicate 75 7) i :=
  C9_no_length_validation _ _ _ _ (by decide) (by decide) (by decide)
    (by decide) (by decide) (by decide)
